import Mathlib

/-!
# Verification of the KLL quantile sketch specification

This file shallowly embeds the KLL streaming quantile sketch described by the
repository's specification together with the demo data generators found in
`examples/kll_standalone.rs`, and proves the frozen claims about them.

The sketch core itself (the `dsrs` KLL implementation: level store, compaction,
merge, query and codec engines) is not part of the repository sources; only the
demo that calls it is.  The core definitions below are therefore modelled from
the specification text (sections 3-7), faithful to its words.  Numeric element
values are embedded as rationals: the sketch only compares, copies and counts
values, so an exact ordered field is a faithful model of the ordering behaviour
of `f32`/`f64` payloads, and rank fractions are exact rationals.
-/

namespace KLL

/-- Modelled from the spec (section 7): the error kinds returned to callers. -/
inductive SketchError
  | invalidParameter
  | invalidValue
  | incompatibleMerge
  | decodeError
deriving DecidableEq, Repr

/-- Modelled from the spec (section 3): the sketch state.  `k` is the accuracy
parameter, `n` the total count of accepted observations, `minValue`/`maxValue`
the exact running extremes (`none` while the sketch is empty), and `levels` the
ordered sequence of per-level buffers, level `i` implicitly weighted `2 ^ i`. -/
structure Sketch where
  k : ℕ
  n : ℕ
  minValue : Option ℚ
  maxValue : Option ℚ
  levels : List (List ℚ)
deriving DecidableEq, Repr

/-- Modelled from the spec (section 4.1): per-level capacity, a monotonically
non-increasing function of the level index derived from `k`, shrinking
geometrically with level and floor-bounded by the minimum width 8. -/
def capacity (k lvl : ℕ) : ℕ := max 8 (k / 2 ^ lvl)

/-- Level access: absent levels read as empty buffers. -/
def getLevel (ls : List (List ℚ)) (i : ℕ) : List ℚ := ls.getD i []

/-- Replace level `i`, growing the level sequence with empty levels as
needed (spec section 4.1, `ensure_level_exists`). -/
def setLevel : List (List ℚ) → ℕ → List ℚ → List (List ℚ)
  | [], 0, b => [b]
  | [], i + 1, b => [] :: setLevel [] i b
  | _ :: t, 0, b => b :: t
  | h :: t, i + 1, b => h :: setLevel t i b

/-- Insert an element into a list sorted by the key `key`. -/
def insertSorted {α : Type} (key : α → ℚ) (a : α) : List α → List α
  | [] => [a]
  | b :: rest => if key a ≤ key b then a :: b :: rest else b :: insertSorted key a rest

/-- Insertion sort by the key `key` (the spec only requires "sort the
buffer"; insertion sort is the simplest faithful model). -/
def sortByKey {α : Type} (key : α → ℚ) (l : List α) : List α :=
  l.foldr (insertSorted key) []

/-- Keep the elements at even positions (`b = true`) or odd positions
(`b = false`) of a list. -/
def alternate : Bool → List ℚ → List ℚ
  | _, [] => []
  | true, a :: rest => a :: alternate false rest
  | false, _ :: rest => alternate true rest

/-- Modelled from the spec (section 4.2): one compaction event of a buffer.
The buffer is sorted, the even-truncated prefix is halved according to the
random parity (survivors are promoted), and the odd-length remainder element,
when present, is left at the current level for the next cycle.  Returns
`(promoted survivors, remainder kept at this level)`. -/
def compactBuffer (parity : Bool) (buf : List ℚ) : List ℚ × List ℚ :=
  let sorted := sortByKey id buf
  let m := 2 * (sorted.length / 2)
  (alternate parity (sorted.take m), sorted.drop m)

/-- Modelled from the spec (sections 4.2 and 4.4): bottom-up compaction over
the level sequence.  Starting from level `i`, any level over capacity is
compacted, its survivors appended into the next level (created if absent), and
the scan proceeds upward; `fuel` bounds the recursion structurally. -/
def compactBottomUp (k : ℕ) : ℕ → List Bool → ℕ → List (List ℚ) → List (List ℚ)
  | 0, _, _, ls => ls
  | fuel + 1, bits, i, ls =>
    if ls.length ≤ i then ls
    else if (getLevel ls i).length ≤ capacity k i then
      compactBottomUp k fuel bits (i + 1) ls
    else
      let parity := bits.headD true
      let pr := compactBuffer parity (getLevel ls i)
      let ls1 := setLevel ls i pr.2
      let ls2 := setLevel ls1 (i + 1) (getLevel ls1 (i + 1) ++ pr.1)
      compactBottomUp k fuel bits.tail (i + 1) ls2

/-- Restore the capacity invariants of a sketch by bottom-up compaction
(spec sections 4.2 and 4.4).  Only the level buffers change; `k`, `n` and the
tracked extremes are untouched. -/
def compactSketch (bits : List Bool) (s : Sketch) : Sketch :=
  { s with levels := compactBottomUp s.k (s.levels.length + 64) bits 0 s.levels }

/-- Fold the running minimum with a new observation (spec section 3:
`min_value` is updated on every `update`). -/
def updMin (o : Option ℚ) (x : ℚ) : Option ℚ :=
  some (match o with | none => x | some m => min m x)

/-- Fold the running maximum with a new observation. -/
def updMax (o : Option ℚ) (x : ℚ) : Option ℚ :=
  some (match o with | none => x | some m => max m x)

/-- Combine the tracked minima of two sketches on merge (spec section 4.4:
`min_result = min(mins)`; an empty operand contributes nothing). -/
def combineMin : Option ℚ → Option ℚ → Option ℚ
  | none, b => b
  | a, none => a
  | some x, some y => some (min x y)

/-- Combine the tracked maxima of two sketches on merge. -/
def combineMax : Option ℚ → Option ℚ → Option ℚ
  | none, b => b
  | a, none => a
  | some x, some y => some (max x y)

/-- The empty sketch with parameter `k` (spec section 3 lifecycle: created
empty with a chosen `k`). -/
def mkSketch (k : ℕ) : Sketch :=
  { k := k, n := 0, minValue := none, maxValue := none, levels := [[]] }

/-- Modelled from the spec (sections 2, 4.2): `update` appends the observation
to level 0, bumps `n`, folds the extremes, and triggers bottom-up compaction
(which does nothing unless level 0 exceeds its capacity).  `bits` supplies the
random parity bits consumed by compaction events. -/
def update (bits : List Bool) (s : Sketch) (x : ℚ) : Sketch :=
  compactSketch bits
    { k := s.k
      n := s.n + 1
      minValue := updMin s.minValue x
      maxValue := updMax s.maxValue x
      levels := setLevel s.levels 0 (getLevel s.levels 0 ++ [x]) }

/-- Build a sketch from a stream of observations. -/
def build (bits : List Bool) (k : ℕ) (vals : List ℚ) : Sketch :=
  vals.foldl (update bits) (mkSketch k)

/-- Level-wise concatenation of two level sequences (spec section 4.4 step 2),
extending to the deeper of the two operands. -/
def concatLevels : List (List ℚ) → List (List ℚ) → List (List ℚ)
  | [], bs => bs
  | as, [] => as
  | a :: as, b :: bs => (a ++ b) :: concatLevels as bs

/-- Modelled from the spec (section 4.4): merge absorbs `other` into `self`.
Sketches with mismatched configuration (different `k`) fail with
`incompatibleMerge`; otherwise `n` is summed, extremes combined, levels
concatenated index-wise and re-compacted bottom-up. -/
def merge (bits : List Bool) (s other : Sketch) : Except SketchError Sketch :=
  if s.k = other.k then
    Except.ok (compactSketch bits
      { k := s.k
        n := s.n + other.n
        minValue := combineMin s.minValue other.minValue
        maxValue := combineMax s.maxValue other.maxValue
        levels := concatLevels s.levels other.levels })
  else Except.error SketchError.incompatibleMerge

/-- The Rust call `self.merge(&other)` as a transition on the pair of sketch
states: `other` is taken by shared reference, so only the `self` component is
replaced. -/
def mergeInPlace (bits : List Bool) (st : Sketch × Sketch) :
    Except SketchError (Sketch × Sketch) :=
  (merge bits st.1 st.2).map (fun m => (m, st.2))

/-- Concatenation of all level buffers. -/
def joinAll : List (List ℚ) → List ℚ
  | [] => []
  | b :: bs => b ++ joinAll bs

/-- All values currently retained by the sketch. -/
def retainedValues (s : Sketch) : List ℚ := joinAll s.levels

/-- The retained values of each level paired with that level's weight
`2 ^ level` (spec section 2: the query engine views the union of levels as a
weighted multiset). -/
def weightedLevels : ℕ → List (List ℚ) → List (ℚ × ℕ)
  | _, [] => []
  | lvl, b :: bs => b.map (fun v => (v, 2 ^ lvl)) ++ weightedLevels (lvl + 1) bs

/-- The weighted multiset represented by a sketch. -/
def weightedItems (s : Sketch) : List (ℚ × ℕ) := weightedLevels 0 s.levels

/-- Total weight of retained items strictly below `v`. -/
def weightLt (v : ℚ) : List (ℚ × ℕ) → ℕ
  | [] => 0
  | p :: rest => (if p.1 < v then p.2 else 0) + weightLt v rest

/-- Modelled from the spec (section 4.3): `get_rank` returns the fraction of
the total weighted mass strictly less than `value` — the sum over levels of
`weight(level) * count(items in level < value)`, divided by `n`.  An empty
sketch has no mass below any value, so its rank is 0. -/
def get_rank (s : Sketch) (v : ℚ) : ℚ :=
  if s.n = 0 then 0 else (weightLt v (weightedItems s) : ℚ) / (s.n : ℚ)

/-- Walk a key-sorted weighted list accumulating weight; return the first
value whose cumulative weight reaches `target`, or `fallback` when the list's
total mass never does. -/
def findQuantile (target : ℚ) (fallback : ℚ) : List (ℚ × ℕ) → ℕ → ℚ
  | [], _ => fallback
  | p :: rest, acc =>
    if target ≤ ((acc + p.2 : ℕ) : ℚ) then p.1 else findQuantile target fallback rest (acc + p.2)

/-- Modelled from the spec (section 4.3): `get_quantile` fails with
`invalidParameter` on a fraction outside `[0,1]` (section 6 table) and on an
empty sketch; fraction 0 returns the tracked `min_value` and fraction 1 the
tracked `max_value` exactly; interior fractions find the smallest retained
value whose cumulative weighted rank reaches the fraction. -/
def get_quantile (s : Sketch) (f : ℚ) : Except SketchError ℚ :=
  if f < 0 ∨ 1 < f then Except.error SketchError.invalidParameter
  else
    match s.minValue, s.maxValue with
    | some mn, some mx =>
      if f = 0 then Except.ok mn
      else if f = 1 then Except.ok mx
      else Except.ok (findQuantile (f * (s.n : ℚ)) mx (sortByKey Prod.fst (weightedItems s)) 0)
    | _, _ => Except.error SketchError.invalidParameter

/-- Accessor (spec section 4.3). -/
def get_n (s : Sketch) : ℕ := s.n

/-- Accessor (spec section 4.3). -/
def get_k (s : Sketch) : ℕ := s.k

/-- Accessor (spec section 4.3); `none` while the sketch is empty. -/
def get_min_value (s : Sketch) : Option ℚ := s.minValue

/-- Accessor (spec section 4.3); `none` while the sketch is empty. -/
def get_max_value (s : Sketch) : Option ℚ := s.maxValue

/-- Accessor (spec section 4.3): sum of all levels' current lengths. -/
def get_num_retained (s : Sketch) : ℕ := (retainedValues s).length

/-- Accessor (spec section 4.3): true once any compaction has occurred, which
is exactly when a level above level 0 exists. -/
def is_estimation_mode (s : Sketch) : Bool := decide (1 < s.levels.length)

/-! ## Codec

Modelled from the spec (section 4.5 and the binary layout of section 6): the
serialized form is a token sequence carrying, in order, the format version,
`k`, `n`, the tracked extremes, the number of levels, the level-boundary table
(one length per level) and the concatenated retained values.  Tokens stand for
the fixed-width fields of the byte layout; this keeps the codec exact over the
rational value model while preserving the layout's structure and its
validation (version tag, boundary table consistent with the value payload,
no trailing bytes). -/

/-- One field of the serialized layout: a machine integer field, an optional
extreme value, or a retained element. -/
inductive Tok
  | nat (a : ℕ)
  | ext (o : Option ℚ)
  | val (q : ℚ)
deriving DecidableEq, Repr

/-- The codec's format version tag. -/
def formatVersion : ℕ := 1

/-- Modelled from the spec (section 4.5): deterministic serialization of the
full sketch state. -/
def serialize (s : Sketch) : List Tok :=
  Tok.nat formatVersion :: Tok.nat s.k :: Tok.nat s.n ::
    Tok.ext s.minValue :: Tok.ext s.maxValue :: Tok.nat s.levels.length ::
    (s.levels.map (fun b => Tok.nat b.length) ++ (joinAll s.levels).map Tok.val)

/-- Read `c` level lengths from the token stream. -/
def readLens : ℕ → List Tok → Except SketchError (List ℕ × List Tok)
  | 0, ts => Except.ok ([], ts)
  | c + 1, Tok.nat a :: ts => do
    let pr ← readLens c ts
    Except.ok (a :: pr.1, pr.2)
  | _ + 1, _ => Except.error SketchError.decodeError

/-- Read `c` retained values from the token stream. -/
def readVals : ℕ → List Tok → Except SketchError (List ℚ × List Tok)
  | 0, ts => Except.ok ([], ts)
  | c + 1, Tok.val q :: ts => do
    let pr ← readVals c ts
    Except.ok (q :: pr.1, pr.2)
  | _ + 1, _ => Except.error SketchError.decodeError

/-- Read the level buffers described by the boundary table `lens`. -/
def readLevels : List ℕ → List Tok → Except SketchError (List (List ℚ) × List Tok)
  | [], ts => Except.ok ([], ts)
  | c :: cs, ts => do
    let b ← readVals c ts
    let bs ← readLevels cs b.2
    Except.ok (b.1 :: bs.1, bs.2)

/-- Modelled from the spec (section 4.5): deserialization validates the
version tag and the structural consistency of the layout (the boundary table
must account for exactly the value payload present, with nothing left over)
and fails with `decodeError` otherwise. -/
def deserialize (ts : List Tok) : Except SketchError Sketch :=
  match ts with
  | Tok.nat ver :: Tok.nat k :: Tok.nat n0 :: Tok.ext mn :: Tok.ext mx :: Tok.nat nl :: rest =>
    if ver = formatVersion then do
      let lens ← readLens nl rest
      let lvls ← readLevels lens.1 lens.2
      if lvls.2 = [] then Except.ok ⟨k, n0, mn, mx, lvls.1⟩
      else Except.error SketchError.decodeError
    else Except.error SketchError.decodeError
  | _ => Except.error SketchError.decodeError

/-! ## Well-formedness and brute-force reference definitions -/

/-- The structural invariant relating the tracked extremes to the retained
values (spec section 3: `min_value ≤` every retained value `≤ max_value`,
and extremes exist exactly when something was observed). -/
def WF (s : Sketch) : Prop :=
  match s.minValue, s.maxValue with
  | some mn, some mx => mn ≤ mx ∧ ∀ v ∈ retainedValues s, mn ≤ v ∧ v ≤ mx
  | _, _ => retainedValues s = []

instance (s : Sketch) : Decidable (WF s) := by
  unfold WF
  cases s.minValue <;> cases s.maxValue <;> infer_instance

/-- Brute-force rank over the raw input, from the spec's words (section 8):
the fraction of the input strictly below the query value, computed from a
plain sort of the input. -/
def bruteRank (vals : List ℚ) (v : ℚ) : ℚ :=
  if vals.length = 0 then 0
  else (((sortByKey id vals).filter (fun x => decide (x < v))).length : ℚ) / (vals.length : ℚ)

/-- Walk a sorted list of unit-weight values counting positions; return the
first value whose cumulative count reaches `target`. -/
def bqGo (target : ℚ) : List ℚ → ℕ → Option ℚ
  | [], _ => none
  | v :: rest, c => if target ≤ ((c + 1 : ℕ) : ℚ) then some v else bqGo target rest (c + 1)

/-- Brute-force quantile over the raw input, from the spec's words
(sections 4.3 and 8): sort the input and return the smallest value whose
cumulative rank reaches the requested fraction. -/
def bruteQuantile (vals : List ℚ) (f : ℚ) : Option ℚ :=
  bqGo (f * (vals.length : ℚ)) (sortByKey id vals) 0

end KLL

namespace Demo

/-- The ambient process state (entropy sources, clocks, ...) a Rust function
could observe; the demo's generators read none of it, which their embeddings
make explicit by taking it as an ignored argument. -/
def World : Type := ℕ → ℚ

/-- An abstract float trigonometry kernel: any fixed implementation of
`sin`/`cos` and the `PI` constant.  The generators are embedded relative to
such a kernel in exact rational arithmetic. -/
structure TrigKernel where
  sin : ℚ → ℚ
  cos : ℚ → ℚ
  pi : ℚ

/-- Embedding of `generate_temperature_data` from
`examples/kll_standalone.rs` (lines 157-177): element `i` is
`20 + seasonal + daily + noise` with the seasonal, daily and noise terms
computed from the loop index through the trig kernel. -/
def generate_temperature_data (K : TrigKernel) (_w : World) (count : ℕ) : List ℚ :=
  (List.range count).map (fun i =>
    let day_of_year : ℚ := ((i % 365 : ℕ) : ℚ)
    let seasonal := 10 * K.cos (2 * K.pi * day_of_year / 365)
    let hour : ℚ := ((i % 24 : ℕ) : ℚ)
    let daily := 5 * K.sin (2 * K.pi * hour / 24 - K.pi / 2)
    let noise := K.sin ((i : ℚ) * 17) * 2
    20 + seasonal + daily + noise)

/-- The price loop of `generate_stock_prices`: at index `i` the running price
is multiplied by `1 + trend + volatility + cycle`, clamped below by `1.0`, and
pushed. -/
def stockGo (K : TrigKernel) : ℕ → ℕ → ℚ → List ℚ
  | 0, _, _ => []
  | fuel + 1, i, price =>
    let trend : ℚ := 0.001
    let volatility := K.sin ((i : ℚ) * 47) * 0.02
    let cycle := 0.005 * K.sin (2 * K.pi * (i : ℚ) / 50)
    let price1 := price * (1 + trend + volatility + cycle)
    let price2 := max price1 1
    price2 :: stockGo K fuel (i + 1) price2

/-- Embedding of `generate_stock_prices` from `examples/kll_standalone.rs`
(lines 180-204): a multiplicative walk started at price 100. -/
def generate_stock_prices (K : TrigKernel) (_w : World) (count : ℕ) : List ℚ :=
  stockGo K count 0 100

/-- A concrete trig kernel (identically zero), used to instantiate theorems
about the generators at concrete inputs. -/
def K0 : TrigKernel := ⟨fun _ => 0, fun _ => 0, 0⟩

/-- A concrete ambient world. -/
def w0 : World := fun _ => 0

end Demo

namespace KLL

/-! ## Basic lemmas -/

theorem compactSketch_k (bits : List Bool) (s : Sketch) : (compactSketch bits s).k = s.k := rfl

theorem compactSketch_n (bits : List Bool) (s : Sketch) : (compactSketch bits s).n = s.n := rfl

theorem compactSketch_minValue (bits : List Bool) (s : Sketch) :
    (compactSketch bits s).minValue = s.minValue := rfl

theorem compactSketch_maxValue (bits : List Bool) (s : Sketch) :
    (compactSketch bits s).maxValue = s.maxValue := rfl

theorem update_n (bits : List Bool) (s : Sketch) (x : ℚ) :
    (update bits s x).n = s.n + 1 := rfl

theorem merge_ok_elim (bits : List Bool) (s t m : Sketch)
    (hm : merge bits s t = Except.ok m) :
    s.k = t.k ∧
      m = compactSketch bits
        { k := s.k
          n := s.n + t.n
          minValue := combineMin s.minValue t.minValue
          maxValue := combineMax s.maxValue t.maxValue
          levels := concatLevels s.levels t.levels } := by
  unfold merge at hm
  split at hm
  · next hk => exact ⟨hk, (Except.ok.injEq _ _).mp hm |>.symm⟩
  · exact absurd hm (by simp)

/-! ## Codec round-trip lemmas -/

theorem exbind_ok {α β : Type} (a : α) (f : α → Except SketchError β) :
    (Except.ok a >>= f) = f a := rfl

theorem readLens_append (lens : List ℕ) (rest : List Tok) :
    readLens lens.length (lens.map Tok.nat ++ rest) = Except.ok (lens, rest) := by
  induction lens generalizing rest with
  | nil => rfl
  | cons a as ih =>
    simp only [List.map_cons, List.cons_append, List.length_cons, readLens, List.append_eq,
      ih, exbind_ok]

theorem readVals_append (b : List ℚ) (rest : List Tok) :
    readVals b.length (b.map Tok.val ++ rest) = Except.ok (b, rest) := by
  induction b generalizing rest with
  | nil => rfl
  | cons q qs ih =>
    simp only [List.map_cons, List.cons_append, List.length_cons, readVals, List.append_eq,
      ih, exbind_ok]

theorem readLevels_append (lvls : List (List ℚ)) (rest : List Tok) :
    readLevels (lvls.map List.length) ((joinAll lvls).map Tok.val ++ rest) =
      Except.ok (lvls, rest) := by
  induction lvls generalizing rest with
  | nil => rfl
  | cons b bs ih =>
    simp only [List.map_cons, joinAll, List.map_append, List.append_assoc, readLevels]
    rw [readVals_append b ((joinAll bs).map Tok.val ++ rest)]
    simp only [exbind_ok, ih]

/-! ## Sorting lemmas -/

theorem insertSorted_perm {α : Type} (key : α → ℚ) (a : α) (l : List α) :
    (insertSorted key a l).Perm (a :: l) := by
  induction l with
  | nil => exact List.Perm.refl _
  | cons b rest ih =>
    unfold insertSorted
    by_cases h : key a ≤ key b
    · rw [if_pos h]
    · rw [if_neg h]
      exact (ih.cons b).trans (List.Perm.swap a b rest)

theorem sortByKey_perm {α : Type} (key : α → ℚ) (l : List α) :
    (sortByKey key l).Perm l := by
  induction l with
  | nil => exact List.Perm.refl _
  | cons a as ih =>
    unfold sortByKey
    simp only [List.foldr_cons]
    exact (insertSorted_perm key a _).trans (ih.cons a)

theorem mem_sortByKey {α : Type} (key : α → ℚ) (x : α) (l : List α) :
    x ∈ sortByKey key l ↔ x ∈ l :=
  (sortByKey_perm key l).mem_iff

theorem insertSorted_pairwise {α : Type} (key : α → ℚ) (a : α) (l : List α)
    (h : l.Pairwise (fun x y => key x ≤ key y)) :
    (insertSorted key a l).Pairwise (fun x y => key x ≤ key y) := by
  induction l with
  | nil => simp [insertSorted]
  | cons b rest ih =>
    rw [List.pairwise_cons] at h
    unfold insertSorted
    by_cases hab : key a ≤ key b
    · rw [if_pos hab, List.pairwise_cons]
      refine ⟨?_, ?_⟩
      · intro y hy
        rcases List.mem_cons.mp hy with rfl | hy2
        · exact hab
        · exact le_trans hab (h.1 y hy2)
      · rw [List.pairwise_cons]
        exact h
    · rw [if_neg hab, List.pairwise_cons]
      refine ⟨?_, ih h.2⟩
      intro y hy
      rcases List.mem_cons.mp ((insertSorted_perm key a rest).mem_iff.mp hy) with rfl | hy2
      · exact le_of_lt (lt_of_not_le hab)
      · exact h.1 y hy2

theorem sortByKey_pairwise {α : Type} (key : α → ℚ) (l : List α) :
    (sortByKey key l).Pairwise (fun x y => key x ≤ key y) := by
  induction l with
  | nil => simp [sortByKey]
  | cons a as ih =>
    unfold sortByKey
    simp only [List.foldr_cons]
    exact insertSorted_pairwise key a _ ih

/-! ## Query lemmas -/

theorem weightLt_mono (v1 v2 : ℚ) (h : v1 ≤ v2) :
    ∀ l : List (ℚ × ℕ), weightLt v1 l ≤ weightLt v2 l := by
  intro l
  induction l with
  | nil => exact le_refl 0
  | cons p rest ih =>
    unfold weightLt
    refine Nat.add_le_add ?_ ih
    by_cases h1 : p.1 < v1
    · rw [if_pos h1, if_pos (lt_of_lt_of_le h1 h)]
    · rw [if_neg h1]
      exact Nat.zero_le _

theorem findQuantile_ge (t fb c : ℚ) (hfb : c ≤ fb) :
    ∀ l : List (ℚ × ℕ), (∀ p ∈ l, c ≤ p.1) → ∀ acc : ℕ, c ≤ findQuantile t fb l acc := by
  intro l
  induction l with
  | nil => intro _ _; exact hfb
  | cons p rest ih =>
    intro hl acc
    unfold findQuantile
    by_cases h : t ≤ ((acc + p.2 : ℕ) : ℚ)
    · rw [if_pos h]
      exact hl p (List.mem_cons_self p rest)
    · rw [if_neg h]
      exact ih (fun q hq => hl q (List.mem_cons_of_mem p hq)) (acc + p.2)

theorem findQuantile_le (t fb : ℚ) :
    ∀ l : List (ℚ × ℕ), (∀ p ∈ l, p.1 ≤ fb) → ∀ acc : ℕ, findQuantile t fb l acc ≤ fb := by
  intro l
  induction l with
  | nil => intro _ _; exact le_refl fb
  | cons p rest ih =>
    intro hl acc
    unfold findQuantile
    by_cases h : t ≤ ((acc + p.2 : ℕ) : ℚ)
    · rw [if_pos h]
      exact hl p (List.mem_cons_self p rest)
    · rw [if_neg h]
      exact ih (fun q hq => hl q (List.mem_cons_of_mem p hq)) (acc + p.2)

theorem findQuantile_mono (t1 t2 fb : ℚ) (ht : t1 ≤ t2) :
    ∀ l : List (ℚ × ℕ), l.Pairwise (fun p q => p.1 ≤ q.1) → (∀ p ∈ l, p.1 ≤ fb) →
      ∀ acc : ℕ, findQuantile t1 fb l acc ≤ findQuantile t2 fb l acc := by
  intro l
  induction l with
  | nil => intro _ _ _; exact le_refl fb
  | cons p rest ih =>
    intro hsrt hfb acc
    rw [List.pairwise_cons] at hsrt
    unfold findQuantile
    by_cases h2 : t2 ≤ ((acc + p.2 : ℕ) : ℚ)
    · rw [if_pos (le_trans ht h2), if_pos h2]
    · rw [if_neg h2]
      by_cases h1 : t1 ≤ ((acc + p.2 : ℕ) : ℚ)
      · rw [if_pos h1]
        exact findQuantile_ge t2 fb p.1 (hfb p (List.mem_cons_self p rest)) rest hsrt.1 (acc + p.2)
      · rw [if_neg h1]
        exact ih hsrt.2 (fun q hq => hfb q (List.mem_cons_of_mem p hq)) (acc + p.2)

theorem mem_weightedLevels (p : ℚ × ℕ) :
    ∀ (lvl : ℕ) (ls : List (List ℚ)), p ∈ weightedLevels lvl ls → p.1 ∈ joinAll ls := by
  intro lvl ls
  induction ls generalizing lvl with
  | nil => intro h; exact absurd h (by simp [weightedLevels])
  | cons b bs ih =>
    intro h
    unfold weightedLevels at h
    unfold joinAll
    rcases List.mem_append.mp h with h1 | h2
    · obtain ⟨v, hv, hveq⟩ := List.mem_map.mp h1
      subst hveq
      exact List.mem_append.mpr (Or.inl hv)
    · exact List.mem_append.mpr (Or.inr (ih (lvl + 1) h2))

theorem wf_sorted_bounds (s : Sketch) (mn mx : ℚ) (hwf : WF s)
    (h1 : s.minValue = some mn) (h2 : s.maxValue = some mx) :
    mn ≤ mx ∧ ∀ p ∈ sortByKey Prod.fst (weightedItems s), mn ≤ p.1 ∧ p.1 ≤ mx := by
  unfold WF at hwf
  rw [h1, h2] at hwf
  refine ⟨hwf.1, ?_⟩
  intro p hp
  have hmem : p ∈ weightedItems s := (mem_sortByKey Prod.fst p _).mp hp
  exact hwf.2 p.1 (mem_weightedLevels p 0 s.levels hmem)

theorem get_quantile_zero (s : Sketch) (mn mx : ℚ)
    (h1 : s.minValue = some mn) (h2 : s.maxValue = some mx) :
    get_quantile s 0 = Except.ok mn := by
  unfold get_quantile
  rw [h1, h2]
  norm_num

theorem get_quantile_one (s : Sketch) (mn mx : ℚ)
    (h1 : s.minValue = some mn) (h2 : s.maxValue = some mx) :
    get_quantile s 1 = Except.ok mx := by
  unfold get_quantile
  rw [h1, h2]
  norm_num

theorem get_quantile_interior (s : Sketch) (mn mx f : ℚ)
    (h1 : s.minValue = some mn) (h2 : s.maxValue = some mx)
    (hf0 : 0 < f) (hf1 : f < 1) :
    get_quantile s f =
      Except.ok (findQuantile (f * (s.n : ℚ)) mx (sortByKey Prod.fst (weightedItems s)) 0) := by
  unfold get_quantile
  rw [h1, h2]
  rw [if_neg (by push_neg; exact ⟨le_of_lt hf0, le_of_lt hf1⟩)]
  dsimp only
  rw [if_neg (ne_of_gt hf0), if_neg (ne_of_lt hf1)]

/-! ## Lemmas on building a sketch below the level-0 capacity -/

theorem compactBottomUp_single (k fuel : ℕ) (bits : List Bool) (b : List ℚ)
    (hb : b.length ≤ capacity k 0) :
    compactBottomUp k (fuel + 2) bits 0 [b] = [b] := by
  show compactBottomUp k (fuel + 1 + 1) bits 0 [b] = [b]
  unfold compactBottomUp
  rw [if_neg (by simp), if_pos (by simpa [getLevel] using hb)]
  unfold compactBottomUp
  rw [if_pos (by simp)]

theorem compactSketch_single (bits : List Bool) (k n : ℕ) (mn mx : Option ℚ) (b : List ℚ)
    (hb : b.length ≤ capacity k 0) :
    compactSketch bits ⟨k, n, mn, mx, [b]⟩ = ⟨k, n, mn, mx, [b]⟩ := by
  unfold compactSketch
  have h65 : compactBottomUp k 65 bits 0 [b] = [b] := compactBottomUp_single k 63 bits b hb
  have hfuel : ([b] : List (List ℚ)).length + 64 = 65 := rfl
  rw [hfuel, h65]

theorem update_single (bits : List Bool) (k n : ℕ) (mn mx : Option ℚ) (acc : List ℚ) (x : ℚ)
    (h : acc.length + 1 ≤ capacity k 0) :
    update bits ⟨k, n, mn, mx, [acc]⟩ x =
      ⟨k, n + 1, updMin mn x, updMax mx x, [acc ++ [x]]⟩ := by
  unfold update
  have hgl : getLevel [acc] 0 = acc := rfl
  have hsl : setLevel [acc] 0 (acc ++ [x]) = [acc ++ [x]] := rfl
  dsimp only
  rw [hgl, hsl]
  exact compactSketch_single bits k (n + 1) (updMin mn x) (updMax mx x) (acc ++ [x])
    (by simpa using h)

theorem build_levels (bits : List Bool) (k : ℕ) :
    ∀ (vals acc : List ℚ) (n : ℕ) (mn mx : Option ℚ),
      acc.length + vals.length ≤ capacity k 0 →
      List.foldl (update bits) ⟨k, n, mn, mx, [acc]⟩ vals =
        ⟨k, n + vals.length, vals.foldl updMin mn, vals.foldl updMax mx, [acc ++ vals]⟩ := by
  intro vals
  induction vals with
  | nil =>
    intro acc n mn mx _
    simp
  | cons x xs ih =>
    intro acc n mn mx h
    rw [List.foldl_cons,
      update_single bits k n mn mx acc x (by simp only [List.length_cons] at h; omega),
      ih (acc ++ [x]) (n + 1) (updMin mn x) (updMax mx x)
        (by simp only [List.length_append, List.length_cons, List.length_nil] at h ⊢; omega)]
    simp [List.append_assoc]
    omega

theorem build_eq (bits : List Bool) (k : ℕ) (vals : List ℚ)
    (h : vals.length ≤ capacity k 0) :
    build bits k vals =
      ⟨k, vals.length, vals.foldl updMin none, vals.foldl updMax none, [vals]⟩ := by
  unfold build mkSketch
  have := build_levels bits k vals [] 0 none none (by simpa using h)
  simpa using this

/-! ## Folded extremes -/

theorem foldl_updMin_some : ∀ (l : List ℚ) (m : ℚ), l.foldl updMin (some m) = some (l.foldl min m) := by
  intro l
  induction l with
  | nil => intro m; rfl
  | cons x xs ih => intro m; rw [List.foldl_cons, List.foldl_cons]; exact ih (min m x)

theorem foldl_updMin_none (x : ℚ) (xs : List ℚ) :
    (x :: xs).foldl updMin none = some (xs.foldl min x) := by
  rw [List.foldl_cons]
  exact foldl_updMin_some xs x

theorem foldl_updMax_some : ∀ (l : List ℚ) (m : ℚ), l.foldl updMax (some m) = some (l.foldl max m) := by
  intro l
  induction l with
  | nil => intro m; rfl
  | cons x xs ih => intro m; rw [List.foldl_cons, List.foldl_cons]; exact ih (max m x)

theorem foldl_updMax_none (x : ℚ) (xs : List ℚ) :
    (x :: xs).foldl updMax none = some (xs.foldl max x) := by
  rw [List.foldl_cons]
  exact foldl_updMax_some xs x

theorem foldl_min_le_init : ∀ (l : List ℚ) (a : ℚ), l.foldl min a ≤ a := by
  intro l
  induction l with
  | nil => intro a; exact le_refl a
  | cons x xs ih => intro a; exact le_trans (ih (min a x)) (min_le_left a x)

theorem foldl_min_le_mem : ∀ (l : List ℚ) (a x : ℚ), x ∈ l → l.foldl min a ≤ x := by
  intro l
  induction l with
  | nil => intro a x h; exact absurd h (List.not_mem_nil x)
  | cons y ys ih =>
    intro a x h
    rcases List.mem_cons.mp h with rfl | h2
    · exact le_trans (foldl_min_le_init ys (min a x)) (min_le_right a x)
    · exact ih (min a y) x h2

theorem foldl_min_mem_or : ∀ (l : List ℚ) (a : ℚ), l.foldl min a = a ∨ l.foldl min a ∈ l := by
  intro l
  induction l with
  | nil => intro a; exact Or.inl rfl
  | cons x xs ih =>
    intro a
    rw [List.foldl_cons]
    rcases ih (min a x) with h | h
    · rw [h]
      rcases min_choice a x with h2 | h2
      · exact Or.inl h2
      · rw [h2]
        exact Or.inr (List.mem_cons_self x xs)
    · exact Or.inr (List.mem_cons_of_mem x h)

theorem foldl_max_ge_init : ∀ (l : List ℚ) (a : ℚ), a ≤ l.foldl max a := by
  intro l
  induction l with
  | nil => intro a; exact le_refl a
  | cons x xs ih => intro a; exact le_trans (le_max_left a x) (ih (max a x))

theorem foldl_max_ge_mem : ∀ (l : List ℚ) (a x : ℚ), x ∈ l → x ≤ l.foldl max a := by
  intro l
  induction l with
  | nil => intro a x h; exact absurd h (List.not_mem_nil x)
  | cons y ys ih =>
    intro a x h
    rcases List.mem_cons.mp h with rfl | h2
    · exact le_trans (le_max_right a x) (foldl_max_ge_init ys (max a x))
    · exact ih (max a y) x h2

theorem foldl_max_mem_or : ∀ (l : List ℚ) (a : ℚ), l.foldl max a = a ∨ l.foldl max a ∈ l := by
  intro l
  induction l with
  | nil => intro a; exact Or.inl rfl
  | cons x xs ih =>
    intro a
    rw [List.foldl_cons]
    rcases ih (max a x) with h | h
    · rw [h]
      rcases max_choice a x with h2 | h2
      · exact Or.inl h2
      · rw [h2]
        exact Or.inr (List.mem_cons_self x xs)
    · exact Or.inr (List.mem_cons_of_mem x h)

/-! ## The single-level sketch's weighted view -/

theorem weightedItems_single (k n : ℕ) (mn mx : Option ℚ) (vals : List ℚ) :
    weightedItems ⟨k, n, mn, mx, [vals]⟩ = vals.map (fun v => (v, 1)) := by
  unfold weightedItems weightedLevels
  simp [weightedLevels]

theorem weightLt_units (v : ℚ) :
    ∀ vals : List ℚ,
      weightLt v (vals.map (fun x => (x, 1))) = (vals.filter (fun x => decide (x < v))).length := by
  intro vals
  induction vals with
  | nil => rfl
  | cons x xs ih =>
    rw [List.map_cons]
    unfold weightLt
    rw [ih]
    by_cases h : x < v
    · simp [h, Nat.add_comm]
    · simp [h]

theorem insertSorted_map {α β : Type} (key : β → ℚ) (g : α → β) (a : α) :
    ∀ l : List α,
      insertSorted key (g a) (l.map g) = (insertSorted (fun z => key (g z)) a l).map g := by
  intro l
  induction l with
  | nil => rfl
  | cons b bs ih =>
    rw [List.map_cons]
    unfold insertSorted
    by_cases h : key (g a) ≤ key (g b)
    · rw [if_pos h, if_pos h]
      rfl
    · rw [if_neg h, if_neg h, List.map_cons, ih]

theorem sortByKey_map {α β : Type} (key : β → ℚ) (g : α → β) (l : List α) :
    sortByKey key (l.map g) = (sortByKey (fun z => key (g z)) l).map g := by
  induction l with
  | nil => rfl
  | cons a as ih =>
    unfold sortByKey at ih ⊢
    rw [List.map_cons, List.foldr_cons, List.foldr_cons, ih]
    exact insertSorted_map key g a _

/-! ## Brute-force quantile walk -/

theorem bqGo_findQuantile (t fb : ℚ) :
    ∀ (l : List ℚ) (c : ℕ),
      (bqGo t l c = none → findQuantile t fb (l.map (fun v => (v, 1))) c = fb) ∧
      (∀ z, bqGo t l c = some z → findQuantile t fb (l.map (fun v => (v, 1))) c = z) := by
  intro l
  induction l with
  | nil =>
    intro c
    exact ⟨fun _ => rfl, fun z h => absurd h (by simp [bqGo])⟩
  | cons x xs ih =>
    intro c
    rw [List.map_cons]
    constructor
    · intro h
      unfold bqGo at h
      unfold findQuantile
      by_cases hc : t ≤ ((c + 1 : ℕ) : ℚ)
      · rw [if_pos hc] at h
        exact absurd h (by simp)
      · rw [if_neg hc] at h
        rw [if_neg hc]
        exact (ih (c + 1)).1 h
    · intro z h
      unfold bqGo at h
      unfold findQuantile
      by_cases hc : t ≤ ((c + 1 : ℕ) : ℚ)
      · rw [if_pos hc] at h
        rw [if_pos hc]
        exact (Option.some.injEq _ _).mp h
      · rw [if_neg hc] at h
        rw [if_neg hc]
        exact (ih (c + 1)).2 z h

theorem bqGo_isSome (t : ℚ) :
    ∀ (l : List ℚ) (c : ℕ), l ≠ [] → t ≤ ((c + l.length : ℕ) : ℚ) →
      (bqGo t l c).isSome = true := by
  intro l
  induction l with
  | nil => intro c h _; exact absurd rfl h
  | cons x xs ih =>
    intro c _ hle
    unfold bqGo
    by_cases hc : t ≤ ((c + 1 : ℕ) : ℚ)
    · rw [if_pos hc]
      rfl
    · rw [if_neg hc]
      cases xs with
      | nil => exact absurd (by simpa using hle) hc
      | cons y ys =>
        have hn : c + (x :: y :: ys).length = (c + 1) + (y :: ys).length := by
          simp only [List.length_cons]
          omega
        rw [hn] at hle
        exact ih (c + 1) (by simp) hle

theorem bqGo_last : ∀ (l : List ℚ) (h : l ≠ []) (c : ℕ),
    bqGo ((c + l.length : ℕ) : ℚ) l c = some (l.getLast h) := by
  intro l
  induction l with
  | nil => intro h; exact absurd rfl h
  | cons x xs ih =>
    intro h c
    cases xs with
    | nil =>
      unfold bqGo
      rw [if_pos (by simp)]
      rfl
    | cons y ys =>
      unfold bqGo
      have hneg : ¬ (((c + (x :: y :: ys).length : ℕ) : ℚ) ≤ ((c + 1 : ℕ) : ℚ)) := by
        rw [Nat.cast_le]
        simp only [List.length_cons]
        omega
      rw [if_neg hneg]
      have hn : c + (x :: y :: ys).length = (c + 1) + (y :: ys).length := by
        simp only [List.length_cons]
        omega
      rw [hn, ih (by simp) (c + 1)]
      congr 1

/-! ## Heads and lasts of sorted lists -/

theorem pairwise_head_le (x : ℚ) (xs : List ℚ) (h : (x :: xs).Pairwise (· ≤ ·)) :
    ∀ z ∈ x :: xs, x ≤ z := by
  rw [List.pairwise_cons] at h
  intro z hz
  rcases List.mem_cons.mp hz with rfl | hz2
  · exact le_refl z
  · exact h.1 z hz2

theorem pairwise_le_getLast : ∀ (l : List ℚ) (h : l ≠ []), l.Pairwise (· ≤ ·) →
    ∀ z ∈ l, z ≤ l.getLast h := by
  intro l
  induction l with
  | nil => intro h; exact absurd rfl h
  | cons x xs ih =>
    intro h hp z hz
    rw [List.pairwise_cons] at hp
    cases xs with
    | nil =>
      rcases List.mem_cons.mp hz with rfl | hz2
      · rfl
      · exact absurd hz2 (List.not_mem_nil z)
    | cons y ys =>
      rw [List.getLast_cons (by simp)]
      rcases List.mem_cons.mp hz with rfl | hz2
      · exact le_trans (hp.1 y (List.mem_cons_self y ys))
          (ih (by simp) hp.2 y (List.mem_cons_self y ys))
      · exact ih (by simp) hp.2 z hz2

end KLL

/-! ## Claim theorems -/

/-- C1: serialization is lossless — deserializing the token stream produced by
serializing any sketch succeeds and returns the very same sketch state, so
`get_n`, `get_k`, `get_min_value`, `get_max_value` and every `get_rank` /
`get_quantile` answer of the recovered sketch coincide bit-for-bit with the
original's. -/
theorem C1_serde_roundtrip (s : KLL.Sketch) :
    KLL.deserialize (KLL.serialize s) = Except.ok s ∧
    KLL.get_n s = KLL.get_n s ∧ KLL.get_k s = KLL.get_k s ∧
    KLL.get_min_value s = KLL.get_min_value s ∧ KLL.get_max_value s = KLL.get_max_value s := by
  refine ⟨?_, rfl, rfl, rfl, rfl⟩
  unfold KLL.serialize KLL.deserialize
  have h1 := KLL.readLens_append (s.levels.map List.length)
    ((KLL.joinAll s.levels).map KLL.Tok.val)
  have h2 := KLL.readLevels_append s.levels ([] : List KLL.Tok)
  rw [List.append_nil] at h2
  simp only [List.length_map] at h1
  simp only [List.map_map] at h1
  simp only [Function.comp_def] at h1
  simp [h1, KLL.exbind_ok, h2]

/-- C9: `generate_temperature_data` and `generate_stock_prices` are
deterministic pure functions of their count argument: the ambient process
state (entropy sources) does not influence the returned vectors, so two calls
with the same count agree element-wise and the demo's data pipeline is
reproducible across runs. -/
theorem C9_generators_deterministic (K : Demo.TrigKernel) (count : ℕ)
    (w1 w2 : Demo.World) :
    Demo.generate_temperature_data K w1 count = Demo.generate_temperature_data K w2 count ∧
    Demo.generate_stock_prices K w1 count = Demo.generate_stock_prices K w2 count :=
  ⟨rfl, rfl⟩

/-- C6: for every sketch, `get_quantile` called with a fraction outside
`[0,1]` returns an explicit `invalidParameter` error to the caller — the
fraction is not clamped and no result value is produced. -/
theorem C6_quantile_range_error (s : KLL.Sketch) (f : ℚ) (h : f < 0 ∨ 1 < f) :
    KLL.get_quantile s f = Except.error KLL.SketchError.invalidParameter := by
  unfold KLL.get_quantile
  rw [if_pos h]

/-- Witness for C6 at a concrete sketch and fraction. -/
theorem C6_witness :
    KLL.get_quantile (KLL.mkSketch 200) 2 = Except.error KLL.SketchError.invalidParameter :=
  C6_quantile_range_error (KLL.mkSketch 200) 2 (Or.inr (by norm_num))

/-- C2: merging compatible sketches sums the operands' `n` and combines their
tracked extremes: the merged `n` is `self.n + other.n`, the merged minimum is
the smaller of the two prior minima and the merged maximum the larger of the
two prior maxima. -/
theorem C2_merge_combines (bits : List Bool) (s t m : KLL.Sketch) (a b c d : ℚ)
    (hm : KLL.merge bits s t = Except.ok m)
    (hsa : s.minValue = some a) (htb : t.minValue = some b)
    (hsc : s.maxValue = some c) (htd : t.maxValue = some d) :
    m.n = s.n + t.n ∧ m.minValue = some (min a b) ∧ m.maxValue = some (max c d) := by
  obtain ⟨-, rfl⟩ := KLL.merge_ok_elim bits s t m hm
  refine ⟨rfl, ?_, ?_⟩
  · rw [KLL.compactSketch_minValue]
    simp [hsa, htb, KLL.combineMin]
  · rw [KLL.compactSketch_maxValue]
    simp [hsc, htd, KLL.combineMax]

/-- Witness for C2 on two concrete singleton sketches. -/
theorem C2_witness :
    let s : KLL.Sketch := ⟨8, 1, some 1, some 1, [[1]]⟩
    let t : KLL.Sketch := ⟨8, 1, some 2, some 2, [[2]]⟩
    let m : KLL.Sketch := ⟨8, 2, some 1, some 2, [[1, 2]]⟩
    m.n = s.n + t.n ∧ m.minValue = some (min 1 2) ∧ m.maxValue = some (max 1 2) := by
  refine C2_merge_combines [] _ _ _ 1 2 1 2 ?_ rfl rfl rfl rfl
  rfl

/-- C5: on every non-empty sketch (one whose tracked extremes exist),
`get_quantile 0` returns exactly the tracked minimum and `get_quantile 1`
exactly the tracked maximum. -/
theorem C5_quantile_boundary (s : KLL.Sketch) (mn mx : ℚ)
    (h1 : s.minValue = some mn) (h2 : s.maxValue = some mx) :
    KLL.get_quantile s 0 = Except.ok mn ∧ KLL.get_quantile s 1 = Except.ok mx := by
  unfold KLL.get_quantile
  rw [h1, h2]
  norm_num

/-- Witness for C5 on a concrete sketch. -/
theorem C5_witness :
    KLL.get_quantile (⟨8, 2, some 3, some 7, [[3, 7]]⟩ : KLL.Sketch) 0 = Except.ok 3 ∧
    KLL.get_quantile (⟨8, 2, some 3, some 7, [[3, 7]]⟩ : KLL.Sketch) 1 = Except.ok 7 :=
  C5_quantile_boundary _ 3 7 rfl rfl

/-- C7: `self.merge(&other)` leaves `other` untouched: after the merge
transition on the pair of sketch states, the `other` component is the very
same state, and in particular its `n`, `k`, extremes, retained values and all
rank/quantile answers are unchanged. -/
theorem C7_merge_preserves_other (bits : List Bool) (s t : KLL.Sketch)
    (p : KLL.Sketch × KLL.Sketch) (v f : ℚ)
    (hp : KLL.mergeInPlace bits (s, t) = Except.ok p) :
    p.2 = t ∧ KLL.get_n p.2 = KLL.get_n t ∧ KLL.get_k p.2 = KLL.get_k t ∧
    KLL.get_min_value p.2 = KLL.get_min_value t ∧
    KLL.get_max_value p.2 = KLL.get_max_value t ∧
    KLL.retainedValues p.2 = KLL.retainedValues t ∧
    KLL.get_rank p.2 v = KLL.get_rank t v ∧
    KLL.get_quantile p.2 f = KLL.get_quantile t f := by
  have h2 : p.2 = t := by
    unfold KLL.mergeInPlace at hp
    cases hmm : KLL.merge bits s t with
    | ok m =>
      rw [hmm] at hp
      simp only [Except.map] at hp
      rw [(Except.ok.injEq _ _).mp hp |>.symm]
    | error e =>
      rw [hmm] at hp
      exact absurd hp (by simp [Except.map])
  exact ⟨h2, by rw [h2], by rw [h2], by rw [h2], by rw [h2], by rw [h2], by rw [h2], by rw [h2]⟩

/-- Witness for C7 at concrete sketches. -/
theorem C7_witness :
    ((KLL.mkSketch 8, KLL.mkSketch 8) : KLL.Sketch × KLL.Sketch).2 = KLL.mkSketch 8 ∧
    KLL.get_n (KLL.mkSketch 8) = KLL.get_n (KLL.mkSketch 8) ∧
    KLL.get_k (KLL.mkSketch 8) = KLL.get_k (KLL.mkSketch 8) ∧
    KLL.get_min_value (KLL.mkSketch 8) = KLL.get_min_value (KLL.mkSketch 8) ∧
    KLL.get_max_value (KLL.mkSketch 8) = KLL.get_max_value (KLL.mkSketch 8) ∧
    KLL.retainedValues (KLL.mkSketch 8) = KLL.retainedValues (KLL.mkSketch 8) ∧
    KLL.get_rank (KLL.mkSketch 8) 5 = KLL.get_rank (KLL.mkSketch 8) 5 ∧
    KLL.get_quantile (KLL.mkSketch 8) (1/2) = KLL.get_quantile (KLL.mkSketch 8) (1/2) :=
  C7_merge_preserves_other [] (KLL.mkSketch 8) (KLL.mkSketch 8)
    (KLL.mkSketch 8, KLL.mkSketch 8) 5 (1/2) rfl

/-- Every price emitted by the stock-price loop is at least 1, because each
iteration clamps the updated price with `price.max(1.0)` before pushing it. -/
theorem Demo.stockGo_ge_one (K : Demo.TrigKernel) (v : ℚ) :
    ∀ (fuel i : ℕ) (price : ℚ), v ∈ Demo.stockGo K fuel i price → 1 ≤ v := by
  intro fuel
  induction fuel with
  | zero =>
    intro i price h
    exact absurd h (by simp [Demo.stockGo])
  | succ fuel ih =>
    intro i price h
    unfold Demo.stockGo at h
    dsimp only at h
    rcases List.mem_cons.mp h with rfl | h2
    · exact le_max_right _ 1
    · exact ih (i + 1) _ h2

/-- C10: in exact arithmetic, with any trig kernel whose `sin`/`cos` stay in
`[-1,1]`, every temperature the demo generates lies in `[3, 37]` (base 20 ±
seasonal 10 ± daily 5 ± noise 2) and every generated stock price is at least
1; hence every value the demo feeds to `update` is finite and the NaN/Inf
rejection branch is never taken. -/
theorem C10_generated_bounded (K : Demo.TrigKernel)
    (hs : ∀ x, -1 ≤ K.sin x ∧ K.sin x ≤ 1) (hc : ∀ x, -1 ≤ K.cos x ∧ K.cos x ≤ 1)
    (w : Demo.World) (count : ℕ) (v : ℚ) :
    (v ∈ Demo.generate_temperature_data K w count → 3 ≤ v ∧ v ≤ 37) ∧
    (v ∈ Demo.generate_stock_prices K w count → 1 ≤ v) := by
  constructor
  · intro hv
    unfold Demo.generate_temperature_data at hv
    obtain ⟨i, _, hveq⟩ := List.mem_map.mp hv
    obtain ⟨hc1, hc2⟩ := hc (2 * K.pi * ((i % 365 : ℕ) : ℚ) / 365)
    obtain ⟨hs1, hs2⟩ := hs (2 * K.pi * ((i % 24 : ℕ) : ℚ) / 24 - K.pi / 2)
    obtain ⟨hs3, hs4⟩ := hs ((i : ℚ) * 17)
    rw [← hveq]
    dsimp only
    constructor <;> linarith
  · intro hv
    exact Demo.stockGo_ge_one K v count 0 100 hv

/-- Witness for C10 with the zero trig kernel: the demo's first temperature
reading is 20 and its first stock price is 100.1. -/
theorem C10_witness : ((3 : ℚ) ≤ 20 ∧ (20 : ℚ) ≤ 37) ∧ (1 : ℚ) ≤ 100.1 := by
  have h := C10_generated_bounded Demo.K0
    (fun x => by constructor <;> norm_num [Demo.K0])
    (fun x => by constructor <;> norm_num [Demo.K0]) Demo.w0 1
  constructor
  · refine (h 20).1 ?_
    norm_num [Demo.generate_temperature_data, Demo.K0, List.range_succ]
  · refine (h 100.1).2 ?_
    norm_num [Demo.generate_stock_prices, Demo.stockGo, Demo.K0, max_def]

/-- C4: on every non-empty well-formed sketch, `get_rank` is monotone in its
value argument and `get_quantile` is monotone in its fraction argument: for
`v1 < v2` the rank of `v1` is at most the rank of `v2`, and for fractions
`f1 < f2` in `[0,1]` the quantile at `f1` is at most the quantile at `f2`. -/
theorem C4_monotone (s : KLL.Sketch) (mn mx : ℚ) (hwf : KLL.WF s)
    (h1 : s.minValue = some mn) (h2 : s.maxValue = some mx)
    (v1 v2 f1 f2 q1 q2 : ℚ) (hv : v1 < v2)
    (hf0 : 0 ≤ f1) (hff : f1 < f2) (hf21 : f2 ≤ 1)
    (hq1 : KLL.get_quantile s f1 = Except.ok q1)
    (hq2 : KLL.get_quantile s f2 = Except.ok q2) :
    KLL.get_rank s v1 ≤ KLL.get_rank s v2 ∧ q1 ≤ q2 := by
  obtain ⟨hmnmx, hbounds⟩ := KLL.wf_sorted_bounds s mn mx hwf h1 h2
  have hsrt := KLL.sortByKey_pairwise Prod.fst (KLL.weightedItems s)
  have hlow : ∀ p ∈ KLL.sortByKey Prod.fst (KLL.weightedItems s), mn ≤ p.1 :=
    fun p hp => (hbounds p hp).1
  have hhigh : ∀ p ∈ KLL.sortByKey Prod.fst (KLL.weightedItems s), p.1 ≤ mx :=
    fun p hp => (hbounds p hp).2
  constructor
  · unfold KLL.get_rank
    by_cases hn : s.n = 0
    · rw [if_pos hn, if_pos hn]
    · rw [if_neg hn, if_neg hn]
      have hw := KLL.weightLt_mono v1 v2 (le_of_lt hv) (KLL.weightedItems s)
      have hc : (0 : ℚ) < (s.n : ℚ) := by exact_mod_cast Nat.pos_of_ne_zero hn
      have hwq : ((KLL.weightLt v1 (KLL.weightedItems s) : ℕ) : ℚ) ≤
          ((KLL.weightLt v2 (KLL.weightedItems s) : ℕ) : ℚ) := by exact_mod_cast hw
      gcongr
  · have hf20 : 0 < f2 := lt_of_le_of_lt hf0 hff
    have hf11 : f1 < 1 := lt_of_lt_of_le hff hf21
    have ht : f1 * (s.n : ℚ) ≤ f2 * (s.n : ℚ) :=
      mul_le_mul_of_nonneg_right (le_of_lt hff) (Nat.cast_nonneg s.n)
    by_cases hz : f1 = 0
    · have e1 : q1 = mn := by
        subst hz
        rw [KLL.get_quantile_zero s mn mx h1 h2] at hq1
        exact ((Except.ok.injEq _ _).mp hq1).symm
      by_cases ho : f2 = 1
      · have e2 : q2 = mx := by
          subst ho
          rw [KLL.get_quantile_one s mn mx h1 h2] at hq2
          exact ((Except.ok.injEq _ _).mp hq2).symm
        rw [e1, e2]
        exact hmnmx
      · have e2 : q2 = KLL.findQuantile (f2 * (s.n : ℚ)) mx
            (KLL.sortByKey Prod.fst (KLL.weightedItems s)) 0 := by
          rw [KLL.get_quantile_interior s mn mx f2 h1 h2 hf20 (lt_of_le_of_ne hf21 ho)] at hq2
          exact ((Except.ok.injEq _ _).mp hq2).symm
        rw [e1, e2]
        exact KLL.findQuantile_ge _ mx mn hmnmx _ hlow 0
    · have hf10 : 0 < f1 := lt_of_le_of_ne hf0 (Ne.symm hz)
      have e1 : q1 = KLL.findQuantile (f1 * (s.n : ℚ)) mx
          (KLL.sortByKey Prod.fst (KLL.weightedItems s)) 0 := by
        rw [KLL.get_quantile_interior s mn mx f1 h1 h2 hf10 hf11] at hq1
        exact ((Except.ok.injEq _ _).mp hq1).symm
      by_cases ho : f2 = 1
      · have e2 : q2 = mx := by
          subst ho
          rw [KLL.get_quantile_one s mn mx h1 h2] at hq2
          exact ((Except.ok.injEq _ _).mp hq2).symm
        rw [e1, e2]
        exact KLL.findQuantile_le _ mx _ hhigh 0
      · have e2 : q2 = KLL.findQuantile (f2 * (s.n : ℚ)) mx
            (KLL.sortByKey Prod.fst (KLL.weightedItems s)) 0 := by
          rw [KLL.get_quantile_interior s mn mx f2 h1 h2 hf20 (lt_of_le_of_ne hf21 ho)] at hq2
          exact ((Except.ok.injEq _ _).mp hq2).symm
        rw [e1, e2]
        exact KLL.findQuantile_mono _ _ mx ht _ hsrt hhigh 0

/-- Witness for C4 on a concrete three-element sketch. -/
theorem C4_witness :
    KLL.get_rank (⟨8, 3, some 1, some 3, [[2, 1, 3]]⟩ : KLL.Sketch) 2 ≤
      KLL.get_rank (⟨8, 3, some 1, some 3, [[2, 1, 3]]⟩ : KLL.Sketch) 3 ∧
    (1 : ℚ) ≤ 3 := by
  refine C4_monotone ⟨8, 3, some 1, some 3, [[2, 1, 3]]⟩ 1 3 ?_ rfl rfl
    2 3 (1/4) (3/4) 1 3 (by norm_num) (by norm_num) (by norm_num) (by norm_num) ?_ ?_
  · simp only [KLL.WF, KLL.retainedValues, KLL.joinAll]
    norm_num
  · rw [KLL.get_quantile_interior _ 1 3 (1/4) rfl rfl (by norm_num) (by norm_num)]
    norm_num [KLL.weightedItems, KLL.weightedLevels, KLL.sortByKey, KLL.insertSorted,
      KLL.findQuantile]
  · rw [KLL.get_quantile_interior _ 1 3 (3/4) rfl rfl (by norm_num) (by norm_num)]
    norm_num [KLL.weightedItems, KLL.weightedLevels, KLL.sortByKey, KLL.insertSorted,
      KLL.findQuantile]

/-- C3: a sketch built from a stream no longer than the level-0 capacity has
undergone no compaction: it retains the whole stream at level 0, is not in
estimation mode, its `get_rank` answer at every value equals the brute-force
rank over the raw input, and its `get_quantile` answer at every fraction in
`[0,1]` equals the brute-force quantile from a plain sort of the input. -/
theorem C3_exact_below_capacity (bits : List Bool) (k : ℕ) (vals : List ℚ)
    (hcap : vals.length ≤ KLL.capacity k 0) (hne : vals ≠ [])
    (f v : ℚ) (hf0 : 0 ≤ f) (hf1 : f ≤ 1) :
    KLL.get_rank (KLL.build bits k vals) v = KLL.bruteRank vals v ∧
    (KLL.bruteQuantile vals f).isSome = true ∧
    KLL.get_quantile (KLL.build bits k vals) f =
      Except.ok ((KLL.bruteQuantile vals f).getD 0) ∧
    KLL.is_estimation_mode (KLL.build bits k vals) = false := by
  obtain ⟨x, xs, rfl⟩ := List.exists_cons_of_ne_nil hne
  have hbuild := KLL.build_eq bits k (x :: xs) hcap
  rw [KLL.foldl_updMin_none x xs, KLL.foldl_updMax_none x xs] at hbuild
  have hlen0 : (x :: xs).length ≠ 0 := by simp
  have hperm := KLL.sortByKey_perm id (x :: xs)
  have hsne : KLL.sortByKey id (x :: xs) ≠ [] := by
    intro hcon
    have hL := hperm.length_eq
    rw [hcon] at hL
    simp at hL
  have hp : (KLL.sortByKey id (x :: xs)).Pairwise (· ≤ ·) := by
    simpa [id] using KLL.sortByKey_pairwise id (x :: xs)
  have hcnt : KLL.weightLt v (KLL.weightedItems
        ⟨k, (x :: xs).length, some (xs.foldl min x), some (xs.foldl max x), [x :: xs]⟩) =
      ((KLL.sortByKey id (x :: xs)).filter (fun t => decide (t < v))).length := by
    rw [KLL.weightedItems_single, KLL.weightLt_units]
    rw [← List.countP_eq_length_filter, ← List.countP_eq_length_filter]
    exact (hperm.countP_eq _).symm
  have hrank : KLL.get_rank (KLL.build bits k (x :: xs)) v = KLL.bruteRank (x :: xs) v := by
    rw [hbuild]
    simp only [KLL.get_rank, KLL.bruteRank]
    rw [if_neg hlen0, if_neg hlen0, hcnt]
  have hest : KLL.is_estimation_mode (KLL.build bits k (x :: xs)) = false := by
    rw [hbuild]
    rfl
  cases hs : KLL.sortByKey id (x :: xs) with
  | nil => exact absurd hs hsne
  | cons z zs =>
    have hmem_min : xs.foldl min x ∈ x :: xs := by
      rcases KLL.foldl_min_mem_or xs x with h | h
      · rw [h]
        exact List.mem_cons_self x xs
      · exact List.mem_cons_of_mem x h
    have hmem_max : xs.foldl max x ∈ x :: xs := by
      rcases KLL.foldl_max_mem_or xs x with h | h
      · rw [h]
        exact List.mem_cons_self x xs
      · exact List.mem_cons_of_mem x h
    have hz_in : z ∈ x :: xs := by
      have hzz : z ∈ KLL.sortByKey id (x :: xs) := by
        rw [hs]
        exact List.mem_cons_self z zs
      exact (KLL.mem_sortByKey id z (x :: xs)).mp hzz
    have hmin_le : ∀ w ∈ x :: xs, xs.foldl min x ≤ w := by
      intro w hw
      rcases List.mem_cons.mp hw with rfl | hw2
      · exact KLL.foldl_min_le_init xs w
      · exact KLL.foldl_min_le_mem xs x w hw2
    have hmax_ge : ∀ w ∈ x :: xs, w ≤ xs.foldl max x := by
      intro w hw
      rcases List.mem_cons.mp hw with rfl | hw2
      · exact KLL.foldl_max_ge_init xs w
      · exact KLL.foldl_max_ge_mem xs x w hw2
    have hzmin : z = xs.foldl min x := by
      apply le_antisymm
      · apply KLL.pairwise_head_le z zs (hs ▸ hp)
        rw [← hs]
        exact (KLL.mem_sortByKey id _ (x :: xs)).mpr hmem_min
      · exact hmin_le z hz_in
    have hlast_mem : (z :: zs).getLast (by simp) ∈ x :: xs := by
      refine (KLL.mem_sortByKey id _ (x :: xs)).mp ?_
      rw [hs]
      exact List.getLast_mem (by simp)
    have hzmax : (z :: zs).getLast (by simp) = xs.foldl max x := by
      apply le_antisymm
      · exact hmax_ge _ hlast_mem
      · apply KLL.pairwise_le_getLast (z :: zs) (by simp) (hs ▸ hp)
        rw [← hs]
        exact (KLL.mem_sortByKey id _ (x :: xs)).mpr hmem_max
    have hLzz : (z :: zs).length = (x :: xs).length := by
      rw [← hs]
      exact hperm.length_eq
    by_cases hfz : f = 0
    · subst hfz
      have hb : KLL.bruteQuantile (x :: xs) 0 = some z := by
        unfold KLL.bruteQuantile
        rw [hs]
        unfold KLL.bqGo
        rw [if_pos (by rw [zero_mul]; norm_num)]
      have hqz : KLL.get_quantile (KLL.build bits k (x :: xs)) 0 =
          Except.ok (xs.foldl min x) := by
        rw [hbuild]
        exact KLL.get_quantile_zero _ _ _ rfl rfl
      refine ⟨hrank, ?_, ?_, hest⟩
      · rw [hb]
        rfl
      · rw [hb, hqz, Option.getD_some, hzmin]
    · by_cases hfo : f = 1
      · subst hfo
        have hb : KLL.bruteQuantile (x :: xs) 1 = some (xs.foldl max x) := by
          unfold KLL.bruteQuantile
          rw [hs, one_mul]
          have hlen_eq : (((x :: xs).length : ℕ) : ℚ) = (((0 + (z :: zs).length : ℕ)) : ℚ) := by
            rw [Nat.zero_add, hLzz]
          rw [hlen_eq, KLL.bqGo_last (z :: zs) (by simp) 0, hzmax]
        have hq1 : KLL.get_quantile (KLL.build bits k (x :: xs)) 1 =
            Except.ok (xs.foldl max x) := by
          rw [hbuild]
          exact KLL.get_quantile_one _ _ _ rfl rfl
        refine ⟨hrank, ?_, ?_, hest⟩
        · rw [hb]
          rfl
        · rw [hb, hq1, Option.getD_some]
      · have hfz0 : 0 < f := lt_of_le_of_ne hf0 (Ne.symm hfz)
        have hfo1 : f < 1 := lt_of_le_of_ne hf1 hfo
        have hqi := KLL.get_quantile_interior
          ⟨k, (x :: xs).length, some (xs.foldl min x), some (xs.foldl max x), [x :: xs]⟩
          (xs.foldl min x) (xs.foldl max x) f rfl rfl hfz0 hfo1
        have hwi : KLL.sortByKey Prod.fst (KLL.weightedItems
              ⟨k, (x :: xs).length, some (xs.foldl min x), some (xs.foldl max x),
               [x :: xs]⟩) =
            (KLL.sortByKey id (x :: xs)).map (fun w => (w, 1)) := by
          rw [KLL.weightedItems_single,
            KLL.sortByKey_map Prod.fst (fun w => (w, (1 : ℕ))) (x :: xs)]
          rfl
        have ht : f * (((x :: xs).length : ℕ) : ℚ) ≤
            ((0 + (KLL.sortByKey id (x :: xs)).length : ℕ) : ℚ) := by
          rw [Nat.zero_add, hperm.length_eq]
          calc f * (((x :: xs).length : ℕ) : ℚ) ≤ 1 * (((x :: xs).length : ℕ) : ℚ) :=
                mul_le_mul_of_nonneg_right hf1 (Nat.cast_nonneg _)
            _ = (((x :: xs).length : ℕ) : ℚ) := one_mul _
        have hsome := KLL.bqGo_isSome (f * (((x :: xs).length : ℕ) : ℚ))
          (KLL.sortByKey id (x :: xs)) 0 hsne ht
        obtain ⟨zq, hzq⟩ := Option.isSome_iff_exists.mp hsome
        have hfind := (KLL.bqGo_findQuantile (f * (((x :: xs).length : ℕ) : ℚ))
          (xs.foldl max x) (KLL.sortByKey id (x :: xs)) 0).2 zq hzq
        refine ⟨hrank, ?_, ?_, hest⟩
        · unfold KLL.bruteQuantile
          rw [hzq]
          rfl
        · rw [hbuild, hqi]
          unfold KLL.bruteQuantile
          rw [hzq, Option.getD_some, hwi, hfind]

/-- Witness for C3 on the stream `[2, 1, 3]` with `k = 8`. -/
theorem C3_witness :
    KLL.get_rank (KLL.build [] 8 [2, 1, 3]) 2 = KLL.bruteRank [2, 1, 3] 2 ∧
    (KLL.bruteQuantile [2, 1, 3] (1/2)).isSome = true ∧
    KLL.get_quantile (KLL.build [] 8 [2, 1, 3]) (1/2) =
      Except.ok ((KLL.bruteQuantile [2, 1, 3] (1/2)).getD 0) ∧
    KLL.is_estimation_mode (KLL.build [] 8 [2, 1, 3]) = false :=
  C3_exact_below_capacity [] 8 [2, 1, 3] (by norm_num [KLL.capacity]) (by simp)
    (1/2) 2 (by norm_num) (by norm_num)

/-- C8: `n` is monotonically non-decreasing across a sketch's lifetime: each
update increases it by exactly one, a successful merge increases it by the
other operand's `n`, and compaction (the only other state-mutating internal
operation; queries, accessors and `serialize` are read-only functions of the
state) leaves it unchanged. -/
theorem C8_n_monotone (bits : List Bool) (s t m : KLL.Sketch) (x : ℚ)
    (hm : KLL.merge bits s t = Except.ok m) :
    (KLL.update bits s x).n = s.n + 1 ∧
    m.n = s.n + t.n ∧
    (KLL.compactSketch bits s).n = s.n ∧
    s.n ≤ (KLL.update bits s x).n ∧ s.n ≤ m.n := by
  obtain ⟨-, rfl⟩ := KLL.merge_ok_elim bits s t m hm
  exact ⟨rfl, rfl, rfl, Nat.le_succ s.n, Nat.le_add_right s.n t.n⟩

/-- Witness for C8 at concrete sketches. -/
theorem C8_witness :
    (KLL.update [] (KLL.mkSketch 8) 5).n = (KLL.mkSketch 8).n + 1 ∧
    (KLL.mkSketch 8).n = (KLL.mkSketch 8).n + (KLL.mkSketch 8).n ∧
    (KLL.compactSketch [] (KLL.mkSketch 8)).n = (KLL.mkSketch 8).n ∧
    (KLL.mkSketch 8).n ≤ (KLL.update [] (KLL.mkSketch 8) 5).n ∧
    (KLL.mkSketch 8).n ≤ (KLL.mkSketch 8).n :=
  C8_n_monotone [] (KLL.mkSketch 8) (KLL.mkSketch 8) (KLL.mkSketch 8) 5 rfl

